import Mathlib

set_option maxRecDepth 8192
set_option linter.unusedVariables false

/-! Shallow embedding of the response-parsing layer of the computer-vision
prototype: heuristic section extraction from free-form API responses
(`mission_generator.py`, `ai_mentor.py`, `problem_classifier.py`), the
orchestration control flow (`integrated_system.py`) and the conversation
transcript of the mentor (`ai_mentor.py`).  Python strings are modelled as
`List Char`. -/

/-- Python whitespace, as stripped by `str.strip()`. -/
def isPySpace (c : Char) : Bool :=
  c = ' ' || c = '\t' || c = '\n' || c = '\r' || c = '\x0b' || c = '\x0c'

/-- `startsWithPat p s` holds when pattern `p` occurs at the start of `s`. -/
def startsWithPat : List Char → List Char → Bool
  | [], _ => true
  | _ :: _, [] => false
  | c :: p, d :: s => c == d && startsWithPat p s

/-- Index of the first occurrence of pattern `p` in `s`
(Python `str.find`, with `none` in place of `-1`). -/
def strFind : List Char → List Char → Option Nat
  | [], p => if startsWithPat p [] then some 0 else none
  | c :: t, p =>
    if startsWithPat p (c :: t) then some 0 else (strFind t p).map (· + 1)

/-- Python's `p in s` substring test. -/
def hasSub (s p : List Char) : Bool := (strFind s p).isSome

/-- Python `str.strip()`: drop leading and trailing whitespace. -/
def pyStrip (l : List Char) : List Char :=
  ((l.dropWhile isPySpace).reverse.dropWhile isPySpace).reverse

/-- Python `str.split('\n')`. -/
def splitOnNl : List Char → List (List Char)
  | [] => [[]]
  | c :: t =>
    match splitOnNl t with
    | [] => [[]]
    | l :: ls => if c = '\n' then [] :: l :: ls else (c :: l) :: ls

/-- Python `str.lower()` (ASCII suffices for the strings involved). -/
def lowerStr (l : List Char) : List Char := l.map Char.toLower

/-- Python `str.upper()`. -/
def upperStr (l : List Char) : List Char := l.map Char.toUpper

/-! ## Section maps (`_parse_mission_response`, `_parse_socratic_response`) -/

/-- The mission Section Map of `_parse_mission_response`
(`mission_generator.py`), in declaration order. -/
def missionSections : List (String × List (List Char)) :=
  [("mission_statement", ["MISSION STATEMENT:".toList, "Mission Statement:".toList]),
   ("problem_definition", ["PROBLEM DEFINITION:".toList, "Problem Definition:".toList]),
   ("goal", ["GOAL:".toList, "Goal:".toList]),
   ("expected_impact", ["EXPECTED IMPACT:".toList, "Expected Impact:".toList]),
   ("action_steps", ["ACTION STEPS:".toList, "Action Steps:".toList])]

/-- The Socratic Section Map of `_parse_socratic_response` (`ai_mentor.py`). -/
def socraticSections : List (String × List (List Char)) :=
  [("questions", ["GUIDING QUESTIONS:".toList, "Guiding Questions:".toList]),
   ("reflections", ["REFLECTION PROMPTS:".toList, "Reflection Prompts:".toList]),
   ("challenges", ["CHALLENGE POINTS:".toList, "Challenge Points:".toList]),
   ("next_steps", ["NEXT STEPS:".toList, "Next Steps:".toList])]

/-- First candidate header of a section that occurs in the response
(the inner `for header in headers: if header in response` loop). -/
def firstHeaderIn (response : List Char) : List (List Char) → Option (List Char)
  | [] => none
  | h :: t => if hasSub response h then some h else firstHeaderIn response t

/-- One step of the `next_header_idx` minimisation loop: lower `acc`
to the first occurrence of `p` in `r` when that occurrence is earlier. -/
def updateMin (r : List Char) (acc : Nat) (p : List Char) : Nat :=
  match strFind r p with
  | some i => if i < acc then i else acc
  | none => acc

/-- The whole minimisation loop over a list of candidate delimiters. -/
def foldMin (r : List Char) (ps : List (List Char)) (acc : Nat) : Nat :=
  ps.foldl (updateMin r) acc

/-- The delimiter candidates the mission parser scans for a section `key`:
every header variant of every OTHER key (`if other_key != key`), in
iteration order. -/
def missionOtherHeaders (key : String) : List (List Char) :=
  ((missionSections.filter (fun kv => !(kv.1 == key))).map Prod.snd).flatten

/-- `next_header_idx` of `_parse_mission_response`, relative to the text
`rem` that follows the matched header (initial value `len(remaining)`). -/
def missionDelim (key : String) (rem : List Char) : Nat :=
  foldMin rem (missionOtherHeaders key) rem.length

/-- One line of the `ACTION STEPS` content: kept (stripped, otherwise
unmodified) when nonempty and starting with a digit, `-` or `•`. -/
def actionStepLine (line : List Char) : Option (List Char) :=
  match pyStrip line with
  | [] => none
  | c :: t => if c.isDigit || c == '-' || c == '•' then some (c :: t) else none

/-- The `steps` list comprehension of `_parse_mission_response`. -/
def actionSteps (content : List Char) : List (List Char) :=
  (splitOnNl content).filterMap actionStepLine

/-- A parsed section value: a text block, or (for `action_steps`) a list. -/
inductive SectionValue where
  | text (s : List Char)
  | items (ls : List (List Char))
deriving DecidableEq

/-- Content extracted by `_parse_mission_response` for one section, `none`
when no candidate header occurs.  `start` is `response.find(header) +
len(header)`; the `getD 0` is unreachable because the header was found. -/
def missionSectionContent (response : List Char) (key : String)
    (headers : List (List Char)) : Option (List Char) :=
  (firstHeaderIn response headers).map (fun h =>
    let start := (strFind response h).getD 0 + h.length
    let rem := response.drop start
    pyStrip (rem.take (missionDelim key rem)))

/-- `_parse_mission_response` (`mission_generator.py` lines 77-116):
a mapping, in declaration order, from found section keys to contents. -/
def parseMissionResponse (response : List Char) : List (String × SectionValue) :=
  missionSections.filterMap (fun kv =>
    (missionSectionContent response kv.1 kv.2).map (fun content =>
      (kv.1, if kv.1 == "action_steps" then SectionValue.items (actionSteps content)
             else SectionValue.text content)))

/-- The delimiter candidates `_extract_section_content` scans: every header
string of every section that differs from the matched header itself
(`if other_header != header`) — the same key's other variant included. -/
def socraticOtherHeaders (header : List Char) : List (List Char) :=
  ((socraticSections.map Prod.snd).flatten).filter (fun oh => !(oh == header))

/-- The `end_idx` minimisation of `_extract_section_content`, relative to
the text `rem` that follows the matched header.  (The Python code works
with absolute indices and initial value `len(response)`; since
`start_idx ≤ len(response)` and every hit is at an absolute index
`≥ start_idx`, subtracting `start_idx` yields exactly this value.) -/
def socraticDelim (header : List Char) (rem : List Char) : Nat :=
  foldMin rem (socraticOtherHeaders header) rem.length

/-- `_extract_section_content` (`ai_mentor.py` lines 392-406).  Callers
only invoke it with a header present in the response, so `getD 0` is
unreachable. -/
def extractSectionContent (response : List Char) (header : List Char) : List Char :=
  let start := (strFind response header).getD 0 + header.length
  let rem := response.drop start
  pyStrip (rem.take (socraticDelim header rem))

/-! ## List-item parsing (`_parse_list_items`) -/

/-- The bullet characters stripped by `line.lstrip('•-–—*►▪▫')`. -/
def bulletChars : List Char := ['•', '-', '–', '—', '*', '►', '▪', '▫']

/-- Python `line.split('.', 1)[1]`: everything after the first `.`. -/
def afterFirstDot : List Char → List Char
  | [] => []
  | c :: t => if c = '.' then t else afterFirstDot t

/-- The per-line normalisation of `_parse_list_items`: strip whitespace,
strip leading bullet characters, strip a leading `N.` numbering, and emit
the remaining text when nonempty. -/
def listItemLine (line : List Char) : Option (List Char) :=
  let l1 := pyStrip line
  if l1 = [] then none
  else
    let l2 := pyStrip (l1.dropWhile (fun c => bulletChars.contains c))
    let l3 :=
      match l2 with
      | [] => l2
      | c :: _ =>
        if c.isDigit && (l2.take 3).contains '.' then pyStrip (afterFirstDot l2) else l2
    if l3 = [] then none else some l3

/-- `_parse_list_items` (`ai_mentor.py` lines 408-421). -/
def parseListItems (text : List Char) : List (List Char) :=
  (splitOnNl text).filterMap listItemLine

/-- `_parse_socratic_response` (`ai_mentor.py` lines 326-344). -/
def parseSocraticResponse (response : List Char) : List (String × List (List Char)) :=
  socraticSections.filterMap (fun kv =>
    (firstHeaderIn response kv.2).map (fun h =>
      (kv.1, parseListItems (extractSectionContent response h))))

/-! ## Template auto-selection (`_determine_template_type`) -/

def budgetKeywords : List (List Char) :=
  ["budget".toList, "cost".toList, "funding".toList, "money".toList, "finance".toList]

def stakeholderKeywords : List (List Char) :=
  ["stakeholder".toList, "community".toList, "people".toList, "involve".toList]

def timelineKeywords : List (List Char) :=
  ["timeline".toList, "schedule".toList, "when".toList, "deadline".toList]

def swotKeywords : List (List Char) :=
  ["strength".toList, "weakness".toList, "opportunity".toList, "threat".toList, "analyze".toList]

/-- `_determine_template_type` (`ai_mentor.py` lines 309-324). -/
def determineTemplateType (desc : List Char) : String :=
  let d := lowerStr desc
  if budgetKeywords.any (fun w => hasSub d w) then "budget"
  else if stakeholderKeywords.any (fun w => hasSub d w) then "stakeholder"
  else if timelineKeywords.any (fun w => hasSub d w) then "timeline"
  else if swotKeywords.any (fun w => hasSub d w) then "swot"
  else "action_plan"

/-! ## Classification parsing (`_parse_classification`) -/

/-- `Config.CATEGORIES` (`config.py`). -/
def configCategories : List (List Char) :=
  ["Environment".toList, "Health".toList, "Education".toList]

/-- First category whose lowercase form occurs in the lowercased response
(the first loop of `_parse_classification`). -/
def categoryScan (cats : List (List Char)) (r : List Char) : Option (List Char) :=
  cats.find? (fun cat => hasSub (lowerStr r) (lowerStr cat))

/-- One line of the structured-response fallback of
`_parse_classification`: on a line containing a `CATEGORY:` marker, the
first matching category overwrites the accumulator (the inner `break`
only leaves the category loop, so later lines scan again). -/
def lineScanStep (cats : List (List Char)) (acc : Option (List Char))
    (line : List Char) : Option (List Char) :=
  if hasSub (upperStr line) "CATEGORY:".toList then
    match cats.find? (fun cat => hasSub (lowerStr line) (lowerStr cat)) with
    | some c => some c
    | none => acc
  else acc

/-- The structured-response fallback of `_parse_classification`: scan the
lines for `CATEGORY:` markers when the response mentions
`PRIMARY CATEGORY:` or `Category:`. -/
def categoryLineScan (cats : List (List Char)) (r : List Char) : Option (List Char) :=
  if hasSub r "PRIMARY CATEGORY:".toList || hasSub r "Category:".toList then
    (splitOnNl r).foldl (lineScanStep cats) none
  else none

/-- The category component of `_parse_classification`
(`problem_classifier.py` lines 123-147); `cats` is `self.categories`. -/
def classifyCategory (cats : List (List Char)) (r : List Char) : List Char :=
  match categoryScan cats r with
  | some c => c
  | none =>
    match categoryLineScan cats r with
    | some c => c
    | none => cats.headD []

/-- The reasoning markers, in the order `_parse_classification` tries them. -/
def reasoningMarkers : List (List Char) :=
  ["REASONING:".toList, "Reasoning:".toList, "because".toList, "Because".toList]

/-- The reasoning component of `_parse_classification`
(`problem_classifier.py` lines 162-173): the stripped suffix of the
response starting at the first occurrence of the first marker present
(marker included), the entire response when none is present. -/
def classifyReasoning (r : List Char) : List Char :=
  let fromMarker :=
    match reasoningMarkers.find? (fun m => hasSub r m) with
    | some m => pyStrip (r.drop ((strFind r m).getD 0))
    | none => []
  if fromMarker = [] then r else fromMarker

/-! ## Mission result assembly (`generate_mission_statement`, success path) -/

/-- `parsed.get(key, default)` on the mapping built by
`_parse_mission_response`. -/
def dictGet (m : List (String × SectionValue)) (k : String) (d : SectionValue) : SectionValue :=
  match m.find? (fun p => p.1 == k) with
  | some p => p.2
  | none => d

structure MissionOutput where
  mission_statement : SectionValue
  problem_definition : SectionValue
  goal : SectionValue
  expected_impact : SectionValue
  action_steps : SectionValue
deriving DecidableEq

/-- The section fields of the success result of `generate_mission_statement`
(`mission_generator.py` lines 25-34), as a function of the raw response
text `result`: each field is `parsed.get(key, default)`, with default
`result` itself for `mission_statement`, `''` for the other text sections
and `[]` for `action_steps`. -/
def generateMissionSuccess (result : List Char) : MissionOutput :=
  let parsed := parseMissionResponse result
  { mission_statement := dictGet parsed "mission_statement" (SectionValue.text result),
    problem_definition := dictGet parsed "problem_definition" (SectionValue.text []),
    goal := dictGet parsed "goal" (SectionValue.text []),
    expected_impact := dictGet parsed "expected_impact" (SectionValue.text []),
    action_steps := dictGet parsed "action_steps" (SectionValue.items []) }

/-! ## Orchestrator control flow (`integrated_system.py`)

Each Domain Service call is modelled by the success flag of its result;
`executed` records which Domain Service steps the control path performs. -/

structure PipeOutput where
  success : Bool
  failedStep : Option String
  executed : List String
deriving DecidableEq

/-- `process_image` (`integrated_system.py` lines 17-61): only the vision
step's flag is inspected; the classification and mission-generation calls
are made regardless of their own outcome, and their flags (`classOk`,
`missionOk`) are never read. -/
def processImage (visionOk classOk missionOk : Bool) : PipeOutput :=
  if !visionOk then
    { success := false, failedStep := some "vision_detection",
      executed := ["vision_detection"] }
  else
    { success := true, failedStep := none,
      executed := ["vision_detection", "classification",
                   "problem_extraction", "mission_generation"] }

/-- `process_text_description` (`integrated_system.py` lines 63-101):
both flags are inspected, each failure aborts with its step name. -/
def processTextDescription (classOk missionOk : Bool) : PipeOutput :=
  if !classOk then
    { success := false, failedStep := some "classification",
      executed := ["classification"] }
  else if !missionOk then
    { success := false, failedStep := some "mission_generation",
      executed := ["classification", "mission_generation"] }
  else
    { success := true, failedStep := none,
      executed := ["classification", "mission_generation"] }

/-! ## Interactive mentoring transcript (`ai_mentor.py` lines 83-122) -/

/-- Outcome of the external `generate_content` call. -/
inductive CallOutcome where
  | ok (text : List Char)
  | err (msg : List Char)

structure MentorTurn where
  success : Bool
  history : List (String × List Char)
  conversationLength : Option Nat
deriving DecidableEq

/-- `interactive_mentoring`: the user message is appended to the history
before the external call; the mentor response is appended only on success,
and the success result reports `len(self.conversation_history)`. -/
def interactiveMentoring (hist : List (String × List Char)) (userMsg : List Char)
    (outcome : CallOutcome) : MentorTurn :=
  let h1 := hist ++ [("user", userMsg)]
  match outcome with
  | CallOutcome.ok resp =>
    let h2 := h1 ++ [("mentor", resp)]
    { success := true, history := h2, conversationLength := some h2.length }
  | CallOutcome.err _ =>
    { success := false, history := h1, conversationLength := none }

/-- `reset_conversation`. -/
def resetConversation : List (String × List Char) := []

/-! ## Occurrence characterisation of `strFind` -/

/-- Pattern `p` occurs in `s` at offset `i`. -/
def occursAt (s p : List Char) (i : Nat) : Prop :=
  startsWithPat p (s.drop i) = true

theorem startsWithPat_iff_append :
    ∀ (p s : List Char), startsWithPat p s = true ↔ ∃ t, p ++ t = s := by
  intro p
  induction p with
  | nil => intro s; simp [startsWithPat]
  | cons c p ih =>
    intro s
    cases s with
    | nil => simp [startsWithPat]
    | cons d s =>
      simp only [startsWithPat, Bool.and_eq_true, beq_iff_eq, ih, List.cons_append,
        List.cons.injEq]
      constructor
      · rintro ⟨rfl, t, rfl⟩; exact ⟨t, rfl, rfl⟩
      · rintro ⟨t, rfl, rfl⟩; exact ⟨rfl, t, rfl⟩

theorem startsWithPat_append (p x y : List Char) (h : startsWithPat p x = true) :
    startsWithPat p (x ++ y) = true := by
  rw [startsWithPat_iff_append] at h ⊢
  obtain ⟨t, rfl⟩ := h
  exact ⟨t ++ y, by simp⟩

theorem occursAt_cons_succ {c : Char} {t p : List Char} {i : Nat} :
    occursAt (c :: t) p (i + 1) ↔ occursAt t p i := by
  simp [occursAt, List.drop_succ_cons]

theorem strFind_some_iff :
    ∀ (s p : List Char) (j : Nat),
      strFind s p = some j ↔ occursAt s p j ∧ ∀ i, i < j → ¬ occursAt s p i := by
  intro s
  induction s with
  | nil =>
    intro p j
    have hocc : ∀ i, occursAt ([] : List Char) p i ↔ startsWithPat p [] = true := by
      intro i; simp [occursAt, List.drop_nil]
    by_cases h : startsWithPat p [] = true
    · simp only [strFind, if_pos h]
      constructor
      · rintro h0
        injection h0 with h0
        subst h0
        exact ⟨(hocc 0).2 h, by omega⟩
      · rintro ⟨_, hmin⟩
        by_contra hne
        have hj : 0 < j := by
          rcases Nat.eq_zero_or_pos j with h0 | h0
          · exact absurd (by rw [h0]) hne
          · exact h0
        exact hmin 0 hj ((hocc 0).2 h)
    · simp only [strFind, if_neg h]
      constructor
      · intro h0; cases h0
      · rintro ⟨hj, _⟩
        exact absurd ((hocc j).1 hj) h
  | cons c t ih =>
    intro p j
    have h0 : occursAt (c :: t) p 0 ↔ startsWithPat p (c :: t) = true := Iff.rfl
    by_cases h : startsWithPat p (c :: t) = true
    · simp only [strFind, if_pos h]
      constructor
      · rintro heq
        injection heq with heq
        subst heq
        exact ⟨h0.2 h, by omega⟩
      · rintro ⟨_, hmin⟩
        by_contra hne
        have hj : 0 < j := by
          rcases Nat.eq_zero_or_pos j with hz | hz
          · exact absurd (by rw [hz]) hne
          · exact hz
        exact hmin 0 hj (h0.2 h)
    · simp only [strFind, if_neg h]
      cases j with
      | zero =>
        simp only [Option.map_eq_some']
        constructor
        · rintro ⟨a, _, ha⟩; omega
        · rintro ⟨hocc0, _⟩
          exact absurd (h0.1 hocc0) h
      | succ j' =>
        simp only [Option.map_eq_some']
        constructor
        · rintro ⟨a, hfind, ha⟩
          have haj : a = j' := by omega
          rw [haj] at hfind
          obtain ⟨hocc', hmin'⟩ := (ih p j').1 hfind
          refine ⟨occursAt_cons_succ.2 hocc', ?_⟩
          intro i hi
          cases i with
          | zero => exact fun hc => h (h0.1 hc)
          | succ i' =>
            intro hc
            exact hmin' i' (by omega) (occursAt_cons_succ.1 hc)
        · rintro ⟨hocc, hmin⟩
          refine ⟨j', (ih p j').2 ⟨occursAt_cons_succ.1 hocc, ?_⟩, rfl⟩
          intro i hi hc
          exact hmin (i + 1) (by omega) (occursAt_cons_succ.2 hc)

theorem strFind_none_iff :
    ∀ (s p : List Char), strFind s p = none ↔ ∀ i, ¬ occursAt s p i := by
  intro s
  induction s with
  | nil =>
    intro p
    have hocc : ∀ i, occursAt ([] : List Char) p i ↔ startsWithPat p [] = true := by
      intro i; simp [occursAt, List.drop_nil]
    by_cases h : startsWithPat p [] = true
    · simp only [strFind, if_pos h]
      constructor
      · intro hc; cases hc
      · intro hmin; exact absurd ((hocc 0).2 h) (hmin 0)
    · simp only [strFind, if_neg h]
      exact ⟨fun _ i hc => h ((hocc i).1 hc), fun _ => trivial⟩
  | cons c t ih =>
    intro p
    have h0 : occursAt (c :: t) p 0 ↔ startsWithPat p (c :: t) = true := Iff.rfl
    by_cases h : startsWithPat p (c :: t) = true
    · simp only [strFind, if_pos h]
      constructor
      · intro hc; cases hc
      · intro hmin; exact absurd (h0.2 h) (hmin 0)
    · simp only [strFind, if_neg h, Option.map_eq_none']
      rw [ih]
      constructor
      · intro hmin i
        cases i with
        | zero => exact fun hc => h (h0.1 hc)
        | succ i' => exact fun hc => hmin i' (occursAt_cons_succ.1 hc)
      · intro hmin i hc
        exact hmin (i + 1) (occursAt_cons_succ.2 hc)

theorem hasSub_iff (s p : List Char) : hasSub s p = true ↔ ∃ i, occursAt s p i := by
  unfold hasSub
  cases hf : strFind s p with
  | none =>
    simp only [Option.isSome_none, Bool.false_eq_true, false_iff]
    rw [strFind_none_iff] at hf
    rintro ⟨i, hi⟩
    exact hf i hi
  | some j =>
    simp only [Option.isSome_some, true_iff]
    exact ⟨j, ((strFind_some_iff s p j).1 hf).1⟩

/-! ## The `next_header_idx` minimisation computes the nearest occurrence -/

theorem updateMin_le (r : List Char) (acc : Nat) (p : List Char) :
    updateMin r acc p ≤ acc := by
  unfold updateMin
  cases strFind r p with
  | none => exact Nat.le_refl acc
  | some i =>
    by_cases h : i < acc
    · simp only [if_pos h]; omega
    · simp only [if_neg h]; omega

theorem foldMin_le (r : List Char) :
    ∀ (ps : List (List Char)) (acc : Nat), foldMin r ps acc ≤ acc := by
  intro ps
  induction ps with
  | nil => intro acc; exact Nat.le_refl acc
  | cons p ps ih =>
    intro acc
    calc foldMin r (p :: ps) acc = foldMin r ps (updateMin r acc p) := rfl
      _ ≤ updateMin r acc p := ih _
      _ ≤ acc := updateMin_le r acc p

theorem foldMin_cases (r : List Char) :
    ∀ (ps : List (List Char)) (acc : Nat),
      foldMin r ps acc = acc ∨ ∃ p ∈ ps, strFind r p = some (foldMin r ps acc) := by
  intro ps
  induction ps with
  | nil => intro acc; exact Or.inl rfl
  | cons p ps ih =>
    intro acc
    have hstep : foldMin r (p :: ps) acc = foldMin r ps (updateMin r acc p) := rfl
    rcases ih (updateMin r acc p) with heq | ⟨q, hq, hfind⟩
    · cases hf : strFind r p with
      | none =>
        have hupd : updateMin r acc p = acc := by unfold updateMin; rw [hf]
        left; rw [hstep, heq, hupd]
      | some i =>
        by_cases hlt : i < acc
        · have hupd : updateMin r acc p = i := by
            unfold updateMin; rw [hf]; simp [hlt]
          right
          exact ⟨p, List.mem_cons_self p ps, by rw [hstep, heq, hupd]; exact hf⟩
        · have hupd : updateMin r acc p = acc := by
            unfold updateMin; rw [hf]; simp [hlt]
          left; rw [hstep, heq, hupd]
    · exact Or.inr ⟨q, List.mem_cons_of_mem p hq, by rw [hstep]; exact hfind⟩

theorem foldMin_min (r : List Char) :
    ∀ (ps : List (List Char)) (acc : Nat) (q : List Char), q ∈ ps →
      ∀ i, strFind r q = some i → foldMin r ps acc ≤ i := by
  intro ps
  induction ps with
  | nil => intro acc q hq; cases hq
  | cons p ps ih =>
    intro acc q hq i hfind
    have hstep : foldMin r (p :: ps) acc = foldMin r ps (updateMin r acc p) := rfl
    rcases List.mem_cons.1 hq with rfl | hmem
    · have h1 : updateMin r acc q ≤ i := by
        unfold updateMin
        rw [hfind]
        by_cases hlt : i < acc
        · simp only [if_pos hlt]; omega
        · simp only [if_neg hlt]; omega
      calc foldMin r (q :: ps) acc = foldMin r ps (updateMin r acc q) := rfl
        _ ≤ updateMin r acc q := foldMin_le r ps _
        _ ≤ i := h1
    · rw [hstep]; exact ih _ q hmem i hfind

/-- The specification of the "nearest other header" rule (spec §4.1): `d`
is the offset of the earliest occurrence in `rem` of any pattern in `ps`,
or `rem.length` when no pattern of `ps` occurs in `rem`. -/
def nearestOccurrence (ps : List (List Char)) (rem : List Char) (d : Nat) : Prop :=
  (∃ p ∈ ps, occursAt rem p d ∧ ∀ i, i < d → ∀ q ∈ ps, ¬ occursAt rem q i)
  ∨ (d = rem.length ∧ ∀ i, ∀ q ∈ ps, ¬ occursAt rem q i)

theorem occursAt_lt_length {rem p : List Char} {j : Nat} (hp : p ≠ [])
    (h : occursAt rem p j) : j < rem.length := by
  unfold occursAt at h
  by_contra hle
  rw [List.drop_eq_nil_of_le (by omega)] at h
  obtain ⟨c, p', rfl⟩ := List.exists_cons_of_ne_nil hp
  simp [startsWithPat] at h

theorem foldMin_nearest (r : List Char) (ps : List (List Char))
    (hne : ∀ p ∈ ps, p ≠ []) :
    nearestOccurrence ps r (foldMin r ps r.length) := by
  rcases foldMin_cases r ps r.length with heq | ⟨p, hp, hfind⟩
  · right
    refine ⟨heq, ?_⟩
    intro i q hq hocc
    have hsome : strFind r q ≠ none := by
      intro hnone
      exact (strFind_none_iff r q).1 hnone i hocc
    obtain ⟨j, hj⟩ := Option.ne_none_iff_exists'.1 hsome
    have h1 : foldMin r ps r.length ≤ j := foldMin_min r ps r.length q hq j hj
    have h2 : occursAt r q j := ((strFind_some_iff r q j).1 hj).1
    have h3 : j < r.length := occursAt_lt_length (hne q hq) h2
    omega
  · left
    obtain ⟨hocc, hmin⟩ := (strFind_some_iff r p _).1 hfind
    refine ⟨p, hp, hocc, ?_⟩
    intro i hi q hq hocci
    have hsome : strFind r q ≠ none := by
      intro hnone
      exact (strFind_none_iff r q).1 hnone i hocci
    obtain ⟨j, hj⟩ := Option.ne_none_iff_exists'.1 hsome
    obtain ⟨hoccj, hminj⟩ := (strFind_some_iff r q j).1 hj
    have hji : j ≤ i := by
      by_contra hgt
      exact hminj i (by omega) hocci
    have hd : foldMin r ps r.length ≤ j := foldMin_min r ps r.length q hq j hj
    omega

/-! ## C2: the delimiter rule of both section extractors -/

theorem mem_missionOtherHeaders_ne_nil (key : String) :
    ∀ p ∈ missionOtherHeaders key, p ≠ [] := by
  intro p hp
  unfold missionOtherHeaders at hp
  obtain ⟨l, hl, hpl⟩ := List.mem_flatten.1 hp
  obtain ⟨kv, hkv, rfl⟩ := List.mem_map.1 hl
  have hkv' : kv ∈ missionSections := (List.mem_filter.1 hkv).1
  have : kv.2 ∈ missionSections.map Prod.snd := List.mem_map.2 ⟨kv, hkv', rfl⟩
  have hall : ∀ hs ∈ missionSections.map Prod.snd, ∀ q ∈ hs, q ≠ [] := by decide
  exact hall kv.2 this p hpl

theorem mem_socraticOtherHeaders_ne_nil (header : List Char) :
    ∀ p ∈ socraticOtherHeaders header, p ≠ [] := by
  intro p hp
  unfold socraticOtherHeaders at hp
  have hp' : p ∈ (socraticSections.map Prod.snd).flatten := (List.mem_filter.1 hp).1
  have hall : ∀ q ∈ (socraticSections.map Prod.snd).flatten, q ≠ [] := by decide
  exact hall p hp'

/-- C2 (amended): in `_parse_mission_response` the section delimiter is the
nearest occurrence after the matched header of any OTHER key's header
variant (end of text when none occurs); in `_extract_section_content`
(`ai_mentor.py`) it is the nearest occurrence of any header string other
than the matched header itself — the same key's other casing variant acts
as a delimiter there as well. -/
theorem sectionDelim_nearest :
    (∀ (key : String) (rem : List Char),
      nearestOccurrence (missionOtherHeaders key) rem (missionDelim key rem))
    ∧ ∀ (header rem : List Char),
      nearestOccurrence (socraticOtherHeaders header) rem (socraticDelim header rem) := by
  constructor
  · intro key rem
    exact foldMin_nearest rem (missionOtherHeaders key)
      (mem_missionOtherHeaders_ne_nil key)
  · intro header rem
    exact foldMin_nearest rem (socraticOtherHeaders header)
      (mem_socraticOtherHeaders_ne_nil header)

/-- The delimiter candidates the claim (spec §4.1) prescribes for the
Socratic extractor: the header variants of the OTHER keys only. -/
def socraticOtherKeyHeaders (key : String) : List (List Char) :=
  ((socraticSections.filter (fun kv => !(kv.1 == key))).map Prod.snd).flatten

/-- C2 (counterexample): in the response
`"GUIDING QUESTIONS:\nfoo\nGuiding Questions:\nbar"` no header of a key
other than `questions` occurs after the matched header
`"GUIDING QUESTIONS:"` (whose content starts at offset 18), so the claim
makes the extracted content run to the end of the text
(`"foo\nGuiding Questions:\nbar"`); `_extract_section_content` instead
stops at the same key's other casing variant and returns `"foo"`. -/
theorem socratic_same_key_variant_delimits :
    ((socraticOtherKeyHeaders "questions").all
        (fun q => !(hasSub (("GUIDING QUESTIONS:\nfoo\nGuiding Questions:\nbar".toList).drop 18) q)) = true)
    ∧ strFind "GUIDING QUESTIONS:\nfoo\nGuiding Questions:\nbar".toList
        "GUIDING QUESTIONS:".toList = some 0
    ∧ extractSectionContent "GUIDING QUESTIONS:\nfoo\nGuiding Questions:\nbar".toList
        "GUIDING QUESTIONS:".toList = "foo".toList
    ∧ pyStrip (("GUIDING QUESTIONS:\nfoo\nGuiding Questions:\nbar".toList).drop 18) =
        "foo\nGuiding Questions:\nbar".toList
    ∧ parseSocraticResponse "GUIDING QUESTIONS:\nfoo\nGuiding Questions:\nbar".toList =
        [("questions", ["foo".toList])]
    ∧ "foo".toList ≠ "foo\nGuiding Questions:\nbar".toList := by
  decide

/-! ## C1: the end-to-end mission parsing example -/

/-- C1 (counterexample): on the example response, the `action_steps` list
kept by `_parse_mission_response` is `["1. Survey drains", "2. File repair
request"]` — the step filter keeps numbered lines verbatim and never strips
the numeric `N.` prefixes, so the value differs from the claimed
`["Survey drains", "File repair request"]`. -/
theorem mission_example_keeps_numeric_prefixes :
    parseMissionResponse
        ("MISSION STATEMENT:\nReduce flooding on Main Street.\nPROBLEM DEFINITION:\nPoor drainage causes recurring floods.\nACTION STEPS:\n1. Survey drains\n2. File repair request".toList) =
      [("mission_statement", SectionValue.text "Reduce flooding on Main Street.".toList),
       ("problem_definition", SectionValue.text "Poor drainage causes recurring floods.".toList),
       ("action_steps", SectionValue.items
          ["1. Survey drains".toList, "2. File repair request".toList])]
    ∧ SectionValue.items ["1. Survey drains".toList, "2. File repair request".toList] ≠
        SectionValue.items ["Survey drains".toList, "File repair request".toList] := by
  decide

/-- C1 (amended): parsing the example response yields
`mission_statement = "Reduce flooding on Main Street."`,
`problem_definition = "Poor drainage causes recurring floods."` and
`action_steps = ["1. Survey drains", "2. File repair request"]` — the
numbered lines are kept with their `N.` prefixes. -/
theorem mission_example_parse :
    parseMissionResponse
        ("MISSION STATEMENT:\nReduce flooding on Main Street.\nPROBLEM DEFINITION:\nPoor drainage causes recurring floods.\nACTION STEPS:\n1. Survey drains\n2. File repair request".toList) =
      [("mission_statement", SectionValue.text "Reduce flooding on Main Street.".toList),
       ("problem_definition", SectionValue.text "Poor drainage causes recurring floods.".toList),
       ("action_steps", SectionValue.items
          ["1. Survey drains".toList, "2. File repair request".toList])] := by
  decide

/-! ## C5: orchestrator short-circuiting -/

/-- C5 (counterexample): in `process_image`, a failed classification step
(`classOk = false`) does not short-circuit the pipeline — the result still
has `success = True`, reports no failed step, and the mission-generation
step is still executed. -/
theorem processImage_ignores_classification_failure :
    (processImage true false true).success = true
    ∧ (processImage true false true).failedStep = none
    ∧ "mission_generation" ∈ (processImage true false true).executed := by
  decide

/-- C5 (amended): in `process_text_description` every step's failure
short-circuits the pipeline with the failing step's name and no later step
runs; in `process_image` only the vision-detection step's failure does so —
the classification and mission-generation flags are never inspected, and
once vision detection succeeds the pipeline reports `success = True`
regardless of them. -/
theorem orchestrator_short_circuit (c m : Bool) :
    processImage false c m =
      { success := false, failedStep := some "vision_detection",
        executed := ["vision_detection"] }
    ∧ (processImage true c m).success = true
    ∧ (processImage true c m).failedStep = none
    ∧ (processImage true c m).executed =
        ["vision_detection", "classification", "problem_extraction", "mission_generation"]
    ∧ processTextDescription false m =
      { success := false, failedStep := some "classification",
        executed := ["classification"] }
    ∧ processTextDescription true false =
      { success := false, failedStep := some "mission_generation",
        executed := ["classification", "mission_generation"] }
    ∧ processTextDescription true true =
      { success := true, failedStep := none,
        executed := ["classification", "mission_generation"] } := by
  cases c <;> cases m <;> exact (by decide)

/-! ## C10: the conversation transcript of `interactive_mentoring` -/

/-- C10: the user message is appended before the external call, so a
successful call grows the history by exactly the user message followed by
the mentor response (and reports the new length) while a failed call still
grows it by the user message alone; `reset_conversation` empties it. -/
theorem interactive_mentoring_history (hist : List (String × List Char))
    (u resp emsg : List Char) :
    interactiveMentoring hist u (CallOutcome.ok resp) =
      { success := true, history := hist ++ [("user", u), ("mentor", resp)],
        conversationLength := some (hist.length + 2) }
    ∧ interactiveMentoring hist u (CallOutcome.err emsg) =
      { success := false, history := hist ++ [("user", u)],
        conversationLength := none }
    ∧ resetConversation = ([] : List (String × List Char)) := by
  refine ⟨?_, rfl, rfl⟩
  unfold interactiveMentoring
  simp [List.append_assoc]

/-! ## C4: parsing is total and best-effort -/

theorem firstHeaderIn_eq_none (r : List Char) :
    ∀ hs : List (List Char), (∀ h ∈ hs, hasSub r h = false) →
      firstHeaderIn r hs = none := by
  intro hs
  induction hs with
  | nil => intro _; rfl
  | cons h t ih =>
    intro hall
    have hh : hasSub r h = false := hall h (List.mem_cons_self h t)
    unfold firstHeaderIn
    rw [hh]
    simp only [Bool.false_eq_true, if_false]
    exact ih (fun h' hh' => hall h' (List.mem_cons_of_mem h hh'))

/-- Every header string a mission section can match. -/
def missionAllHeaders : List (List Char) := (missionSections.map Prod.snd).flatten

/-- Every header string a Socratic section can match. -/
def socraticAllHeaders : List (List Char) := (socraticSections.map Prod.snd).flatten

theorem mem_parseMission_imp {r : List Char} {p : String × SectionValue}
    (hp : p ∈ parseMissionResponse r) :
    ∃ hs, (p.1, hs) ∈ missionSections ∧ firstHeaderIn r hs ≠ none := by
  unfold parseMissionResponse at hp
  obtain ⟨kv, hkv, hmap⟩ := List.mem_filterMap.1 hp
  obtain ⟨content, hc, hpc⟩ := Option.map_eq_some'.1 hmap
  have hfst : p.1 = kv.1 := by rw [← hpc]
  refine ⟨kv.2, by rw [hfst]; exact hkv, ?_⟩
  intro hnone
  unfold missionSectionContent at hc
  rw [hnone] at hc
  simp at hc

theorem mem_parseSocratic_imp {r : List Char} {p : String × List (List Char)}
    (hp : p ∈ parseSocraticResponse r) :
    ∃ hs, (p.1, hs) ∈ socraticSections ∧ firstHeaderIn r hs ≠ none := by
  unfold parseSocraticResponse at hp
  obtain ⟨kv, hkv, hmap⟩ := List.mem_filterMap.1 hp
  obtain ⟨h, hc, hpc⟩ := Option.map_eq_some'.1 hmap
  have hfst : p.1 = kv.1 := by rw [← hpc]
  refine ⟨kv.2, by rw [hfst]; exact hkv, ?_⟩
  intro hnone
  rw [hnone] at hc
  cases hc

theorem headers_of_section_mem_mission {k : String} {hs : List (List Char)}
    (h : (k, hs) ∈ missionSections) : ∀ q ∈ hs, q ∈ missionAllHeaders := by
  intro q hq
  exact List.mem_flatten.2 ⟨hs, List.mem_map.2 ⟨(k, hs), h, rfl⟩, hq⟩

theorem headers_of_section_mem_socratic {k : String} {hs : List (List Char)}
    (h : (k, hs) ∈ socraticSections) : ∀ q ∈ hs, q ∈ socraticAllHeaders := by
  intro q hq
  exact List.mem_flatten.2 ⟨hs, List.mem_map.2 ⟨(k, hs), h, rfl⟩, hq⟩

/-- C4: both parsers are total functions whose result keys always come from
the declared Section Map, and a response containing none of the declared
headers parses to the empty mapping. -/
theorem parsing_best_effort (r : List Char) :
    (∀ kv ∈ parseMissionResponse r, kv.1 ∈ missionSections.map Prod.fst)
    ∧ (∀ kv ∈ parseSocraticResponse r, kv.1 ∈ socraticSections.map Prod.fst)
    ∧ ((∀ h ∈ missionAllHeaders, hasSub r h = false) → parseMissionResponse r = [])
    ∧ ((∀ h ∈ socraticAllHeaders, hasSub r h = false) → parseSocraticResponse r = []) := by
  refine ⟨?_, ?_, ?_, ?_⟩
  · intro kv hkv
    obtain ⟨hs, hmem, _⟩ := mem_parseMission_imp hkv
    exact List.mem_map.2 ⟨(kv.1, hs), hmem, rfl⟩
  · intro kv hkv
    obtain ⟨hs, hmem, _⟩ := mem_parseSocratic_imp hkv
    exact List.mem_map.2 ⟨(kv.1, hs), hmem, rfl⟩
  · intro habs
    unfold parseMissionResponse
    rw [List.filterMap_eq_nil]
    intro kv hkv
    have hnone : firstHeaderIn r kv.2 = none :=
      firstHeaderIn_eq_none r kv.2
        (fun h hh => habs h (headers_of_section_mem_mission (by exact hkv) h hh))
    unfold missionSectionContent
    rw [hnone]
    rfl
  · intro habs
    unfold parseSocraticResponse
    rw [List.filterMap_eq_nil]
    intro kv hkv
    have hnone : firstHeaderIn r kv.2 = none :=
      firstHeaderIn_eq_none r kv.2
        (fun h hh => habs h (headers_of_section_mem_socratic (by exact hkv) h hh))
    rw [hnone]
    rfl

/-- C4 (witness): a response with no declared header parses to the empty
mapping under both parsers. -/
theorem parsing_best_effort_witness :
    parseMissionResponse "nothing structured here".toList = []
    ∧ parseSocraticResponse "nothing structured here".toList = [] :=
  ⟨(parsing_best_effort _).2.2.1 (by decide),
   (parsing_best_effort _).2.2.2 (by decide)⟩

/-! ## C9: fallbacks of `generate_mission_statement` -/

theorem dictGet_parseMission_absent (r : List Char) (k : String) (d : SectionValue)
    (habs : ∀ hs, (k, hs) ∈ missionSections → firstHeaderIn r hs = none) :
    dictGet (parseMissionResponse r) k d = d := by
  unfold dictGet
  have hfind : (parseMissionResponse r).find? (fun p => p.1 == k) = none := by
    rw [List.find?_eq_none]
    intro p hp hbeq
    have hk : p.1 = k := by simpa [beq_iff_eq] using hbeq
    obtain ⟨hs, hmem, hsome⟩ := mem_parseMission_imp hp
    rw [hk] at hmem
    exact hsome (habs hs hmem)
  rw [hfind]

/-- C9: when the response contains no `MISSION STATEMENT:` /
`Mission Statement:` header, the success result of
`generate_mission_statement` carries the ENTIRE raw response as
`mission_statement`; every other section missing from the response defaults
to the empty string (`problem_definition`, `goal`, `expected_impact`) or
the empty list (`action_steps`). -/
theorem generate_mission_fallbacks (result : List Char) :
    ((hasSub result "MISSION STATEMENT:".toList = false) →
      (hasSub result "Mission Statement:".toList = false) →
      (generateMissionSuccess result).mission_statement = SectionValue.text result)
    ∧ ((hasSub result "PROBLEM DEFINITION:".toList = false) →
      (hasSub result "Problem Definition:".toList = false) →
      (generateMissionSuccess result).problem_definition = SectionValue.text [])
    ∧ ((hasSub result "GOAL:".toList = false) →
      (hasSub result "Goal:".toList = false) →
      (generateMissionSuccess result).goal = SectionValue.text [])
    ∧ ((hasSub result "EXPECTED IMPACT:".toList = false) →
      (hasSub result "Expected Impact:".toList = false) →
      (generateMissionSuccess result).expected_impact = SectionValue.text [])
    ∧ ((hasSub result "ACTION STEPS:".toList = false) →
      (hasSub result "Action Steps:".toList = false) →
      (generateMissionSuccess result).action_steps = SectionValue.items []) := by
  refine ⟨?_, ?_, ?_, ?_, ?_⟩ <;>
    intro h1 h2 <;>
    · apply dictGet_parseMission_absent
      intro hs hmem
      apply firstHeaderIn_eq_none
      intro h hh
      simp only [missionSections, List.mem_cons, List.mem_singleton,
        Prod.mk.injEq, List.not_mem_nil, or_false] at hmem
      rcases hmem with ⟨hk, rfl⟩ | ⟨hk, rfl⟩ | ⟨hk, rfl⟩ | ⟨hk, rfl⟩ | ⟨hk, rfl⟩ <;>
        first
          | (simp only [List.mem_cons, List.not_mem_nil, or_false] at hh
             rcases hh with rfl | rfl
             · exact h1
             · exact h2)
          | (exact absurd hk (by decide))

/-- C9 (witness): on the response `"hello"`, which contains no declared
header, `mission_statement` falls back to the whole response and every
other section to its empty default. -/
theorem generate_mission_fallbacks_witness :
    (generateMissionSuccess "hello".toList).mission_statement =
      SectionValue.text "hello".toList
    ∧ (generateMissionSuccess "hello".toList).problem_definition = SectionValue.text []
    ∧ (generateMissionSuccess "hello".toList).goal = SectionValue.text []
    ∧ (generateMissionSuccess "hello".toList).expected_impact = SectionValue.text []
    ∧ (generateMissionSuccess "hello".toList).action_steps = SectionValue.items [] :=
  ⟨(generate_mission_fallbacks _).1 (by decide) (by decide),
   (generate_mission_fallbacks _).2.1 (by decide) (by decide),
   (generate_mission_fallbacks _).2.2.1 (by decide) (by decide),
   (generate_mission_fallbacks _).2.2.2.1 (by decide) (by decide),
   (generate_mission_fallbacks _).2.2.2.2 (by decide) (by decide)⟩

/-! ## C8: template auto-selection -/

/-- All keywords any template group recognises. -/
def allTemplateKeywords : List (List Char) :=
  budgetKeywords ++ stakeholderKeywords ++ timelineKeywords ++ swotKeywords

/-- C8: a subject text containing `"budget"` (case-insensitively) selects
the `budget` template kind, and a subject text containing none of the
recognised keywords selects `action_plan`. -/
theorem determine_template (desc : List Char) :
    (hasSub (lowerStr desc) "budget".toList = true →
      determineTemplateType desc = "budget")
    ∧ ((∀ w ∈ allTemplateKeywords, hasSub (lowerStr desc) w = false) →
      determineTemplateType desc = "action_plan") := by
  constructor
  · intro h
    have hany : budgetKeywords.any (fun w => hasSub (lowerStr desc) w) = true :=
      List.any_eq_true.2 ⟨"budget".toList, by simp [budgetKeywords], h⟩
    simp [determineTemplateType, hany]
  · intro h
    have hb : budgetKeywords.any (fun w => hasSub (lowerStr desc) w) = false := by
      rw [List.any_eq_false]; intro w hw
      simp [h w (by simp [allTemplateKeywords, hw])]
    have hst : stakeholderKeywords.any (fun w => hasSub (lowerStr desc) w) = false := by
      rw [List.any_eq_false]; intro w hw
      simp [h w (by simp [allTemplateKeywords, hw])]
    have hti : timelineKeywords.any (fun w => hasSub (lowerStr desc) w) = false := by
      rw [List.any_eq_false]; intro w hw
      simp [h w (by simp [allTemplateKeywords, hw])]
    have hsw : swotKeywords.any (fun w => hasSub (lowerStr desc) w) = false := by
      rw [List.any_eq_false]; intro w hw
      simp [h w (by simp [allTemplateKeywords, hw])]
    simp [determineTemplateType, hb, hst, hti, hsw]

/-- C8 (witness): `"our Budget plan"` selects `budget`; `"zzz"` matches no
keyword and selects `action_plan`. -/
theorem determine_template_witness :
    determineTemplateType "our Budget plan".toList = "budget"
    ∧ determineTemplateType "zzz".toList = "action_plan" :=
  ⟨(determine_template _).1 (by decide), (determine_template _).2 (by decide)⟩

/-! ## C7: substring transfer along split lines, and the category default -/

theorem splitOnNl_strong :
    ∀ s : List Char, ∃ l ls, splitOnNl s = l :: ls
      ∧ (∃ t, s = l ++ t)
      ∧ (∀ m ∈ ls, ∃ a b, s = a ++ (m ++ b))
      ∧ '\n' ∉ l
      ∧ (∀ m ∈ ls, '\n' ∉ m) := by
  intro s
  induction s with
  | nil =>
    exact ⟨[], [], rfl, ⟨[], rfl⟩, by simp, by simp, by simp⟩
  | cons c t ih =>
    obtain ⟨l, ls, hsp, ⟨tt, htt⟩, hinf, hnl, hnls⟩ := ih
    by_cases hc : c = '\n'
    · subst hc
      refine ⟨[], l :: ls, ?_, ⟨'\n' :: t, rfl⟩, ?_, by simp, ?_⟩
      · unfold splitOnNl
        rw [hsp]
        simp
      · intro m hm
        rcases List.mem_cons.1 hm with rfl | hm'
        · exact ⟨['\n'], tt, by rw [htt]; rfl⟩
        · obtain ⟨a, b, hab⟩ := hinf m hm'
          exact ⟨'\n' :: a, b, by rw [hab]; rfl⟩
      · intro m hm
        rcases List.mem_cons.1 hm with rfl | hm'
        · exact hnl
        · exact hnls m hm'
    · refine ⟨c :: l, ls, ?_, ⟨tt, by rw [htt]; rfl⟩, ?_, ?_, hnls⟩
      · unfold splitOnNl
        rw [hsp]
        simp [hc]
      · intro m hm
        obtain ⟨a, b, hab⟩ := hinf m hm
        exact ⟨c :: a, b, by rw [hab]; rfl⟩
      · intro hmem
        rcases List.mem_cons.1 hmem with heq | hmem'
        · exact hc heq.symm
        · exact hnl hmem'

theorem occursAt_append_right {s p : List Char} {i : Nat} (b : List Char)
    (h : occursAt s p i) : occursAt (s ++ b) p i := by
  unfold occursAt at h ⊢
  rw [List.drop_append_eq_append_drop]
  exact startsWithPat_append p _ _ h

theorem occursAt_append_left {s p : List Char} {i : Nat} (a : List Char)
    (h : occursAt s p i) : occursAt (a ++ s) p (a.length + i) := by
  unfold occursAt at h ⊢
  rw [List.drop_append_eq_append_drop, List.drop_eq_nil_of_le (by omega),
    Nat.add_sub_cancel_left, List.nil_append]
  exact h

theorem hasSub_of_parts (a m b p : List Char) (h : hasSub m p = true) :
    hasSub (a ++ (m ++ b)) p = true := by
  obtain ⟨i, hi⟩ := (hasSub_iff m p).1 h
  exact (hasSub_iff _ p).2
    ⟨a.length + i, occursAt_append_left a (occursAt_append_right b hi)⟩

/-- A substring of one line of the (lowercased) response is a substring of
the whole (lowercased) response. -/
theorem hasSub_lower_of_line {r line p : List Char} (hline : line ∈ splitOnNl r)
    (h : hasSub (lowerStr line) p = true) : hasSub (lowerStr r) p = true := by
  obtain ⟨l, ls, hsp, ⟨tt, htt⟩, hinf, _, _⟩ := splitOnNl_strong r
  rw [hsp] at hline
  rcases List.mem_cons.1 hline with rfl | hm
  · rw [htt]
    unfold lowerStr at h ⊢
    rw [List.map_append]
    simpa using hasSub_of_parts [] (line.map Char.toLower) (tt.map Char.toLower) p h
  · obtain ⟨a, b, hab⟩ := hinf line hm
    rw [hab]
    unfold lowerStr at h ⊢
    rw [List.map_append, List.map_append]
    exact hasSub_of_parts _ _ _ p h

theorem lineScanStep_none (cats : List (List Char)) (acc : Option (List Char))
    (line : List Char)
    (h : cats.find? (fun cat => hasSub (lowerStr line) (lowerStr cat)) = none) :
    lineScanStep cats acc line = acc := by
  unfold lineScanStep
  rw [h]
  by_cases hif : hasSub (upperStr line) "CATEGORY:".toList = true
  · rw [if_pos hif]
  · rw [if_neg hif]

theorem foldl_lineScanStep_none (cats : List (List Char)) :
    ∀ lines : List (List Char),
      (∀ line ∈ lines,
        cats.find? (fun cat => hasSub (lowerStr line) (lowerStr cat)) = none) →
      lines.foldl (lineScanStep cats) none = none := by
  intro lines
  induction lines with
  | nil => intro _; rfl
  | cons line rest ih =>
    intro h
    rw [List.foldl_cons,
      lineScanStep_none cats none line (h line (List.mem_cons_self line rest))]
    exact ih (fun l hl => h l (List.mem_cons_of_mem line hl))

theorem lineScanStep_mem (cats : List (List Char)) (acc : Option (List Char))
    (line : List Char)
    (hacc : acc = none ∨ ∃ c ∈ cats, acc = some c) :
    lineScanStep cats acc line = none
    ∨ ∃ c ∈ cats, lineScanStep cats acc line = some c := by
  unfold lineScanStep
  by_cases hif : hasSub (upperStr line) "CATEGORY:".toList = true
  · rw [if_pos hif]
    cases hfind : cats.find? (fun cat => hasSub (lowerStr line) (lowerStr cat)) with
    | none => exact hacc
    | some c => exact Or.inr ⟨c, List.mem_of_find?_eq_some hfind, rfl⟩
  · rw [if_neg hif]
    exact hacc

theorem foldl_lineScanStep_mem (cats : List (List Char)) :
    ∀ (lines : List (List Char)) (acc : Option (List Char)),
      (acc = none ∨ ∃ c ∈ cats, acc = some c) →
      lines.foldl (lineScanStep cats) acc = none
      ∨ ∃ c ∈ cats, lines.foldl (lineScanStep cats) acc = some c := by
  intro lines
  induction lines with
  | nil => intro acc hacc; exact hacc
  | cons line rest ih =>
    intro acc hacc
    rw [List.foldl_cons]
    exact ih _ (lineScanStep_mem cats acc line hacc)

/-- C7: a response in which no known category occurs (case-insensitively)
is classified as `known_categories[0]`, and the returned category is always
an element of `known_categories` (nonempty in `Config.CATEGORIES`). -/
theorem classify_category_default (cats : List (List Char)) (r : List Char) :
    ((∀ cat ∈ cats, hasSub (lowerStr r) (lowerStr cat) = false) →
      classifyCategory cats r = cats.headD [])
    ∧ (cats ≠ [] → classifyCategory cats r ∈ cats) := by
  constructor
  · intro h
    have hscan : categoryScan cats r = none := by
      unfold categoryScan
      rw [List.find?_eq_none]
      intro cat hcat
      simp [h cat hcat]
    have hline : categoryLineScan cats r = none := by
      unfold categoryLineScan
      by_cases hmark :
          (hasSub r "PRIMARY CATEGORY:".toList || hasSub r "Category:".toList) = true
      · rw [if_pos hmark]
        apply foldl_lineScanStep_none
        intro line hline'
        rw [List.find?_eq_none]
        intro cat hcat hpred
        have := hasSub_lower_of_line hline' hpred
        rw [h cat hcat] at this
        cases this
      · rw [if_neg hmark]
    simp [classifyCategory, hscan, hline]
  · intro hne
    unfold classifyCategory
    cases hscan : categoryScan cats r with
    | some c =>
      exact List.mem_of_find?_eq_some hscan
    | none =>
      cases hline : categoryLineScan cats r with
      | some c =>
        have : categoryLineScan cats r = none
            ∨ ∃ c' ∈ cats, categoryLineScan cats r = some c' := by
          unfold categoryLineScan
          by_cases hmark :
              (hasSub r "PRIMARY CATEGORY:".toList || hasSub r "Category:".toList) = true
          · rw [if_pos hmark]
            exact foldl_lineScanStep_mem cats _ none (Or.inl rfl)
          · rw [if_neg hmark]; exact Or.inl rfl
        rcases this with hcontr | ⟨c', hc', heq⟩
        · rw [hline] at hcontr; cases hcontr
        · rw [hline] at heq
          injection heq with heq
          show c ∈ cats
          rw [heq]
          exact hc'
      | none =>
        obtain ⟨c, cs, rfl⟩ := List.exists_cons_of_ne_nil hne
        exact List.mem_cons_self c cs

/-- C7 (witness): a response mentioning no category is classified as
`Environment`, the first entry of `Config.CATEGORIES`, which is a member
of the category list. -/
theorem classify_category_default_witness :
    classifyCategory configCategories "no matching words at all".toList =
      "Environment".toList
    ∧ classifyCategory configCategories "no matching words at all".toList ∈
        configCategories :=
  ⟨(classify_category_default configCategories _).1 (by decide),
   (classify_category_default configCategories _).2 (by decide)⟩

/-! ## C6: the reasoning component keeps the marker -/

/-- Stripping whitespace from a text that begins with a block `m` whose
first and last characters are not whitespace leaves `m` as a prefix. -/
theorem pyStrip_append_of (m t : List Char) (hm : m ≠ [])
    (h1 : isPySpace (m.headD ' ') = false)
    (h2 : isPySpace (m.reverse.headD ' ') = false) :
    ∃ u, pyStrip (m ++ t) = m ++ u := by
  obtain ⟨c, m', rfl⟩ := List.exists_cons_of_ne_nil hm
  have hc : isPySpace c = false := by simpa using h1
  have hA : List.dropWhile isPySpace ((c :: m') ++ t) = (c :: m') ++ t := by
    rw [List.cons_append, List.dropWhile_cons, hc]
    simp
  unfold pyStrip
  rw [hA, List.reverse_append, List.dropWhile_append]
  by_cases he : (t.reverse.dropWhile isPySpace).isEmpty = true
  · refine ⟨[], ?_⟩
    rw [if_pos he, List.append_nil]
    have hrev : (c :: m').reverse ≠ [] := by simp
    obtain ⟨d, rest, hd⟩ := List.exists_cons_of_ne_nil hrev
    have hdns : isPySpace d = false := by rw [hd] at h2; simpa using h2
    rw [hd, List.dropWhile_cons, hdns]
    simp only [Bool.false_eq_true, if_false]
    rw [← hd, List.reverse_reverse]
  · refine ⟨(t.reverse.dropWhile isPySpace).reverse, ?_⟩
    rw [if_neg he, List.reverse_append, List.reverse_reverse]

theorem reasoningMarkers_ok :
    ∀ m ∈ reasoningMarkers, m ≠ [] ∧ isPySpace (m.headD ' ') = false
      ∧ isPySpace (m.reverse.headD ' ') = false := by decide

/-- C6 (amended): the reasoning component of `_parse_classification` is the
entire response when no marker is present; when a marker is present —
markers tried in the fixed order `REASONING:`, `Reasoning:`, `because`,
`Because` — it is the stripped suffix of the response starting AT the first
occurrence of the first present marker, so the marker itself is INCLUDED
(it is a prefix of the returned reasoning). -/
theorem classify_reasoning_spec (r : List Char) :
    ((∀ m ∈ reasoningMarkers, hasSub r m = false) → classifyReasoning r = r)
    ∧ ∀ m, reasoningMarkers.find? (fun mk => hasSub r mk) = some m →
        ∃ j, strFind r m = some j ∧ classifyReasoning r = pyStrip (r.drop j)
          ∧ startsWithPat m (classifyReasoning r) = true := by
  constructor
  · intro h
    have hfind : reasoningMarkers.find? (fun mk => hasSub r mk) = none := by
      rw [List.find?_eq_none]; intro m hm; simp [h m hm]
    simp [classifyReasoning, hfind]
  · intro m hfind
    have hmem := List.mem_of_find?_eq_some hfind
    have hsub : hasSub r m = true := List.find?_some hfind
    obtain ⟨hne, hh, hl⟩ := reasoningMarkers_ok m hmem
    unfold hasSub at hsub
    cases hf : strFind r m with
    | none => rw [hf] at hsub; cases hsub
    | some j =>
      obtain ⟨t', ht'⟩ := (startsWithPat_iff_append m (r.drop j)).1
        ((strFind_some_iff r m j).1 hf).1
      obtain ⟨u, hu⟩ := pyStrip_append_of m t' hne hh hl
      have hps : pyStrip (r.drop j) = m ++ u := by rw [← ht']; exact hu
      have hnon : pyStrip (r.drop j) ≠ [] := by
        rw [hps]
        obtain ⟨c, m', rfl⟩ := List.exists_cons_of_ne_nil hne
        simp
      have hval : classifyReasoning r = pyStrip (r.drop j) := by
        simp only [classifyReasoning, hfind, hf, Option.getD_some]
        rw [if_neg hnon]
      refine ⟨j, rfl, hval, ?_⟩
      rw [hval, hps]
      exact (startsWithPat_iff_append m (m ++ u)).2 ⟨u, rfl⟩

/-- C6 (witness): `"plain text"` has no marker, so the whole response is
the reasoning; in `"xx Because yy"` the first present marker is `Because`
and the reasoning is the stripped suffix from its occurrence, with the
marker as prefix. -/
theorem classify_reasoning_spec_witness :
    classifyReasoning "plain text".toList = "plain text".toList
    ∧ ∃ j, strFind "xx Because yy".toList "Because".toList = some j
        ∧ classifyReasoning "xx Because yy".toList =
            pyStrip (("xx Because yy".toList).drop j)
        ∧ startsWithPat "Because".toList
            (classifyReasoning "xx Because yy".toList) = true :=
  ⟨(classify_reasoning_spec _).1 (by decide),
   (classify_reasoning_spec _).2 "Because".toList (by decide)⟩

/-- C6 (counterexample): for the response `"REASONING: the drain is
blocked"` the returned reasoning is the whole response — the marker is kept
— and not the text following the marker (with or without the space). -/
theorem classify_reasoning_includes_marker :
    classifyReasoning "REASONING: the drain is blocked".toList =
      "REASONING: the drain is blocked".toList
    ∧ classifyReasoning "REASONING: the drain is blocked".toList ≠
        "the drain is blocked".toList
    ∧ classifyReasoning "REASONING: the drain is blocked".toList ≠
        " the drain is blocked".toList := by
  decide

/-! ## C3: idempotence of `_parse_list_items` -/

/-- Joining items with newlines, one item per line. -/
def joinNl : List (List Char) → List Char
  | [] => []
  | [x] => x
  | x :: y :: r => x ++ '\n' :: joinNl (y :: r)

/-- An item is stable under the per-line normalisation when it neither
starts with a bullet character nor carries a numeric `N.` prefix
(a leading digit with a `.` among its first three characters). -/
def stableItem (m : List Char) : Bool :=
  !(bulletChars.contains (m.headD ' ')) &&
  !((m.headD ' ').isDigit && ((m.take 3).contains '.'))

theorem dropWhile_idem (p : Char → Bool) :
    ∀ l : List Char, List.dropWhile p (List.dropWhile p l) = List.dropWhile p l
  | [] => rfl
  | c :: t => by
    by_cases h : p c = true
    · rw [List.dropWhile_cons, if_pos h]
      exact dropWhile_idem p t
    · rw [List.dropWhile_cons, if_neg h, List.dropWhile_cons, if_neg h]

theorem dropWhile_head_false (p : Char → Bool) :
    ∀ (l : List Char) (c : Char) (t : List Char),
      List.dropWhile p l = c :: t → p c = false
  | [], c, t => by intro h; cases h
  | d :: l, c, t => by
    intro h
    cases hd : p d with
    | true =>
      rw [List.dropWhile_cons, if_pos hd] at h
      exact dropWhile_head_false p l c t h
    | false =>
      rw [List.dropWhile_cons, if_neg (by simp [hd])] at h
      injection h with h1 h2
      rw [← h1]
      exact hd

theorem dropWhile_suffix_ex (p : Char → Bool) :
    ∀ l : List Char, ∃ a, a ++ List.dropWhile p l = l
  | [] => ⟨[], rfl⟩
  | c :: t => by
    by_cases h : p c = true
    · obtain ⟨a, ha⟩ := dropWhile_suffix_ex p t
      exact ⟨c :: a, by rw [List.dropWhile_cons, if_pos h, List.cons_append, ha]⟩
    · exact ⟨[], by rw [List.dropWhile_cons, if_neg h, List.nil_append]⟩

theorem pyStrip_idem (l : List Char) : pyStrip (pyStrip l) = pyStrip l := by
  have hps : pyStrip l = ((l.dropWhile isPySpace).reverse.dropWhile isPySpace).reverse := rfl
  have hxfix : (l.dropWhile isPySpace).dropWhile isPySpace = l.dropWhile isPySpace :=
    dropWhile_idem isPySpace l
  cases hyv : (l.dropWhile isPySpace).reverse.dropWhile isPySpace with
  | nil => rw [hps, hyv]; rfl
  | cons d rest =>
    rw [hps, hyv]
    obtain ⟨a, ha⟩ := dropWhile_suffix_ex isPySpace (l.dropWhile isPySpace).reverse
    rw [hyv] at ha
    have hx : l.dropWhile isPySpace = (d :: rest).reverse ++ a.reverse := by
      have h := congrArg List.reverse ha
      rw [List.reverse_append, List.reverse_reverse] at h
      exact h.symm
    have hrevy : ((d :: rest).reverse : List Char) ≠ [] := by simp
    obtain ⟨e, w, hew⟩ := List.exists_cons_of_ne_nil hrevy
    have hxe : l.dropWhile isPySpace = e :: (w ++ a.reverse) := by
      rw [hx, hew]; rfl
    have hpe : isPySpace e = false :=
      dropWhile_head_false isPySpace l e (w ++ a.reverse) hxe
    have hstep1 : (d :: rest).reverse.dropWhile isPySpace = (d :: rest).reverse := by
      rw [hew, List.dropWhile_cons, hpe]
      simp
    have hyfix : List.dropWhile isPySpace (d :: rest) = d :: rest := by
      rw [← hyv]
      exact dropWhile_idem isPySpace _
    unfold pyStrip
    rw [hstep1, List.reverse_reverse, hyfix]

theorem mem_of_mem_dropWhile (p : Char → Bool) (l : List Char) {c : Char}
    (h : c ∈ List.dropWhile p l) : c ∈ l := by
  obtain ⟨a, ha⟩ := dropWhile_suffix_ex p l
  rw [← ha]
  exact List.mem_append.2 (Or.inr h)

theorem mem_of_mem_pyStrip (l : List Char) {c : Char} (h : c ∈ pyStrip l) : c ∈ l := by
  unfold pyStrip at h
  rw [List.mem_reverse] at h
  have h1 := mem_of_mem_dropWhile isPySpace _ h
  rw [List.mem_reverse] at h1
  exact mem_of_mem_dropWhile isPySpace l h1

theorem mem_of_mem_afterFirstDot (c : Char) :
    ∀ l : List Char, c ∈ afterFirstDot l → c ∈ l := by
  intro l
  induction l with
  | nil => intro h; cases h
  | cons d t ih =>
    intro h
    unfold afterFirstDot at h
    by_cases hd : d = '.'
    · rw [if_pos hd] at h
      exact List.mem_cons_of_mem d h
    · rw [if_neg hd] at h
      exact List.mem_cons_of_mem d (ih h)

theorem splitOnNl_ne_nil (s : List Char) : splitOnNl s ≠ [] := by
  obtain ⟨l, ls, hsp, _⟩ := splitOnNl_strong s
  rw [hsp]
  simp

theorem splitOnNl_no_nl : ∀ l : List Char, '\n' ∉ l → splitOnNl l = [l]
  | [], _ => rfl
  | c :: t, h => by
    have hc : ¬(c = '\n') := fun hceq => h (by rw [hceq]; exact List.mem_cons_self _ _)
    have ht := splitOnNl_no_nl t (fun hm => h (List.mem_cons_of_mem c hm))
    unfold splitOnNl
    rw [ht]
    simp [hc]

theorem splitOnNl_append_nl :
    ∀ (x s : List Char), '\n' ∉ x → splitOnNl (x ++ '\n' :: s) = x :: splitOnNl s
  | [], s, _ => by
    show splitOnNl ('\n' :: s) = [] :: splitOnNl s
    cases hsp : splitOnNl s with
    | nil => exact absurd hsp (splitOnNl_ne_nil s)
    | cons l ls =>
      conv_lhs => rw [splitOnNl]
      rw [hsp]
      simp
  | c :: x', s, h => by
    have hc : ¬(c = '\n') := fun hceq => h (by rw [hceq]; exact List.mem_cons_self _ _)
    have ih := splitOnNl_append_nl x' s (fun hm => h (List.mem_cons_of_mem c hm))
    show splitOnNl (c :: (x' ++ '\n' :: s)) = (c :: x') :: splitOnNl s
    conv_lhs => rw [splitOnNl]
    rw [ih]
    simp [hc]

/-- Every item `_parse_list_items` emits is nonempty, already stripped, and
made of characters of its source line. -/
theorem listItemLine_some {line m : List Char} (h : listItemLine line = some m) :
    m ≠ [] ∧ pyStrip m = m ∧ ∀ c ∈ m, c ∈ line := by
  simp only [listItemLine] at h
  by_cases h1 : pyStrip line = []
  · rw [if_pos h1] at h; cases h
  · rw [if_neg h1] at h
    cases hm2 : pyStrip ((pyStrip line).dropWhile fun c => bulletChars.contains c) with
    | nil =>
      simp only [hm2] at h
      cases h
    | cons c rest =>
      simp only [hm2] at h
      by_cases hcond : (c.isDigit && ((c :: rest).take 3).contains '.') = true
      · rw [if_pos hcond] at h
        by_cases h3 : pyStrip (afterFirstDot (c :: rest)) = []
        · rw [if_pos h3] at h; cases h
        · rw [if_neg h3] at h
          injection h with h
          refine ⟨by rw [← h]; exact h3, by rw [← h]; exact pyStrip_idem _, ?_⟩
          intro c' hc'
          rw [← h] at hc'
          have s1 := mem_of_mem_pyStrip _ hc'
          have s2 := mem_of_mem_afterFirstDot c' _ s1
          rw [← hm2] at s2
          have s3 := mem_of_mem_pyStrip _ s2
          have s4 := mem_of_mem_dropWhile _ _ s3
          exact mem_of_mem_pyStrip _ s4
      · rw [if_neg hcond] at h
        rw [if_neg (by simp : ¬((c :: rest : List Char) = []))] at h
        injection h with h
        have hfix : pyStrip (c :: rest) = c :: rest := by
          rw [← hm2]
          exact pyStrip_idem _
        refine ⟨by rw [← h]; simp, by rw [← h]; exact hfix, ?_⟩
        intro c' hc'
        rw [← h] at hc'
        rw [← hm2] at hc'
        have s3 := mem_of_mem_pyStrip _ hc'
        have s4 := mem_of_mem_dropWhile _ _ s3
        exact mem_of_mem_pyStrip _ s4

/-- A nonempty, stripped, stable item is a fixed point of the per-line
normalisation. -/
theorem listItemLine_of_stable (m : List Char) (hne : m ≠ []) (hfix : pyStrip m = m)
    (hst : stableItem m = true) : listItemLine m = some m := by
  obtain ⟨c, rest, rfl⟩ := List.exists_cons_of_ne_nil hne
  have hpair : bulletChars.contains c = false
      ∧ (c.isDigit && (((c :: rest : List Char)).take 3).contains '.') = false := by
    have h := hst
    simp only [stableItem, List.headD_cons, Bool.and_eq_true, Bool.not_eq_true'] at h
    exact h
  obtain ⟨hbul, hnum⟩ := hpair
  have hdrop : (c :: rest : List Char).dropWhile (fun d => bulletChars.contains d) =
      c :: rest := by
    rw [List.dropWhile_cons, hbul]
    simp
  simp only [listItemLine, hfix, hdrop]
  rw [if_neg hne]
  simp only [hnum, Bool.false_eq_true, if_false]
  rw [if_neg hne]

theorem parseListItems_joinNl :
    ∀ items : List (List Char),
      (∀ m ∈ items, '\n' ∉ m ∧ listItemLine m = some m) →
      parseListItems (joinNl items) = items
  | [], _ => by
    show parseListItems (joinNl []) = []
    decide
  | [m], h => by
    have hm := h m (List.mem_cons_self m [])
    show parseListItems (joinNl [m]) = [m]
    unfold joinNl
    unfold parseListItems
    rw [splitOnNl_no_nl m hm.1]
    simp [List.filterMap_cons, hm.2]
  | m :: m' :: rest, h => by
    have hm := h m (List.mem_cons_self m (m' :: rest))
    have hrest := parseListItems_joinNl (m' :: rest)
      (fun x hx => h x (List.mem_cons_of_mem m hx))
    show parseListItems (joinNl (m :: m' :: rest)) = m :: m' :: rest
    unfold joinNl
    unfold parseListItems
    rw [splitOnNl_append_nl m (joinNl (m' :: rest)) hm.1]
    rw [List.filterMap_cons, hm.2]
    unfold parseListItems at hrest
    rw [hrest]

/-- C3 (amended): `_parse_list_items` is idempotent on its own output
whenever every emitted item is stable under the per-line normalisation —
i.e. no item starts with a bullet character or with a leading digit that
has a `.` among its first three characters.  (The counterexample shows the
unconditional claim fails: an item such as `"2.5 miles"` is renormalised.) -/
theorem parseListItems_idem_of_stable (text : List Char)
    (h : ∀ m ∈ parseListItems text, stableItem m = true) :
    parseListItems (joinNl (parseListItems text)) = parseListItems text := by
  apply parseListItems_joinNl
  intro m hm
  obtain ⟨line, hline, hsome⟩ := List.mem_filterMap.1 hm
  obtain ⟨hne, hfix, hchars⟩ := listItemLine_some hsome
  constructor
  · intro hmem
    have hnl : '\n' ∈ line := hchars _ hmem
    obtain ⟨l, ls, hsp, _, _, hl, hls⟩ := splitOnNl_strong text
    rw [hsp] at hline
    rcases List.mem_cons.1 hline with rfl | hm'
    · exact hl hnl
    · exact hls line hm' hnl
  · exact listItemLine_of_stable m hne hfix (h m hm)

/-- C3 (witness): on `"- alpha\n- beta"` the emitted items are stable and
re-parsing the joined output reproduces them. -/
theorem parseListItems_idem_witness :
    parseListItems (joinNl (parseListItems "- alpha\n- beta".toList)) =
      parseListItems "- alpha\n- beta".toList :=
  parseListItems_idem_of_stable "- alpha\n- beta".toList (by decide)

/-- C3 (counterexample): `_parse_list_items` is not idempotent on its own
output.  On `"1.2.5 miles"` it emits `["2.5 miles"]`; re-running it on the
joined output strips a further numeric prefix and yields `["5 miles"]`. -/
theorem parseListItems_not_idempotent :
    parseListItems "1.2.5 miles".toList = ["2.5 miles".toList]
    ∧ parseListItems (joinNl (parseListItems "1.2.5 miles".toList)) =
        ["5 miles".toList]
    ∧ parseListItems (joinNl (parseListItems "1.2.5 miles".toList)) ≠
        parseListItems "1.2.5 miles".toList := by
  decide
